import Mathlib

/-!
Verification of the SequentialAgents coding-agent CLI against its
natural-language specification.

The development shallowly embeds the Python sources:

* `workspace_manager.py` — path sandboxing (`_resolve_and_check_path`),
  directory listing (`list_files`) and the exact/fuzzy patch engine
  (`apply_file_edit`);
* `tool_executor.py` — the tool dispatcher (`_execute_tool`);
* `main.py` — the bounded autonomous orchestration loop
  (`process_bot_turn`);
* `api_client.py` — the Family-B (nested-contents) message coalescing
  pass of `_transform_messages_for_google`.

Python strings are modelled as `List Char`.  The embedding fixes `'\n'`
as the sole line separator and space/tab as the whitespace characters
(Python's `splitlines`/`strip` also treat `'\r'` and a few other control
characters specially; the texts handled by this program are `'\n'`
separated, so the restriction is faithful on the program's domain).
Pure functions become Lean functions; the file system behind the tool
dispatcher becomes an explicit oracle argument; fallible operations
return structured result values exactly as the Python code does.
-/

/-- Text is modelled as a list of characters (a Python `str`). -/
abbrev Text := List Char

/-- Whitespace as used by the patch engine's strip/indent handling:
space or tab (the line separator `'\n'` never occurs inside a split
line). -/
def isPySpace (c : Char) : Bool := c == ' ' || c == '\t'

/-- Python `str.splitlines` with `'\n'` as the line separator:
`"" ↦ []`, `"a\n" ↦ ["a"]`, `"a\n\n" ↦ ["a", ""]`, `"\n" ↦ [""]`.
A trailing separator does not produce a final empty line. -/
def splitlinesPy : Text → List Text
  | [] => []
  | c :: t =>
    if c = '\n' then
      [] :: splitlinesPy t
    else
      match splitlinesPy t with
      | [] => [[c]]
      | l :: ls => (c :: l) :: ls

/-- Python `sep.join(pieces)` for a one-character separator. -/
def joinWith (sep : Char) : List Text → Text
  | [] => []
  | [l] => l
  | l :: l' :: ls => l ++ sep :: joinWith sep (l' :: ls)

/-- Python `str.strip()` (leading and trailing whitespace removed). -/
def stripPy (l : Text) : Text :=
  ((l.dropWhile isPySpace).reverse.dropWhile isPySpace).reverse

/-- Worker for `countOcc`, structurally scanning one character at a
time: `cooldown` is the number of positions still covered by the last
counted occurrence (after a match of length `L` the scan resumes `L`
characters later, which is the greedy non-overlapping rule of Python's
`str.count`). -/
def countOccAux (search : Text) : Text → Nat → Nat
  | [], cooldown => if search = [] ∧ cooldown = 0 then 1 else 0
  | c :: t, cooldown =>
    if cooldown = 0 then
      if search.isPrefixOf (c :: t) then
        1 + countOccAux search t (search.length - 1)
      else
        countOccAux search t 0
    else
      countOccAux search t (cooldown - 1)

/-- Python `content.count(search)`: the number of non-overlapping
occurrences, scanning greedily from the left.  As in Python, the empty
pattern is counted once at every position, giving `length + 1`. -/
def countOcc (content search : Text) : Nat :=
  countOccAux search content 0

/-- Python `content.replace(search, repl, 1)`: replace the leftmost
occurrence of `search` (the whole text is returned unchanged when there
is none). -/
def replaceOnce : Text → Text → Text → Text
  | [], search, repl => if search.isPrefixOf [] then repl else []
  | c :: t, search, repl =>
    if search.isPrefixOf (c :: t) then
      repl ++ (c :: t).drop search.length
    else
      c :: replaceOnce t search repl

/-- Python `search in content` on strings: `search` occurs as a
contiguous substring (the empty string occurs in every string). -/
def isSubstrOf : Text → Text → Bool
  | search, [] => search.isEmpty
  | search, c :: t => search.isPrefixOf (c :: t) || isSubstrOf search t

/-- The failure modes of `WorkspaceManager.apply_file_edit`. -/
inductive EditError where
  | ambiguousExact
  | emptySearch
  | noMatch
  | ambiguousFuzzy
  deriving DecidableEq, Repr

/-- Outcome of `WorkspaceManager.apply_file_edit` on a loaded file:
a successful exact-phase rewrite, a successful fuzzy-phase rewrite, or a
structured error (in which case the file is not written). -/
inductive EditResult where
  | exactOk (newContent : Text)
  | fuzzyOk (newContent : Text)
  | err (e : EditError)
  deriving DecidableEq, Repr

/-- Python `line.startswith(' ') or line.startswith('\t')`, the patch
engine's test for an already-indented replacement block. -/
def startsWithSpaceTab : Text → Bool
  | [] => false
  | c :: _ => c == ' ' || c == '\t'

/-- The fuzzy-phase scan of `apply_file_edit`: indices `i` of every
window of `fileL` of the search's length whose lines equal the search
lines element-wise (both sides already stripped by the caller). -/
def fuzzyMatches (fileL searchL : List Text) : List Nat :=
  (List.range (fileL.length + 1 - searchL.length)).filter
    (fun i => (fileL.drop i).take searchL.length == searchL)

/-- The indentation auto-correction of the fuzzy phase
(workspace_manager.py, lines 228-240): when the replacement block has
lines, the matched original line has a non-empty leading-whitespace
prefix, and the replacement's first line starts with neither a space
nor a tab, that prefix is prepended to every replacement line and the
lines are rejoined; otherwise the replacement block is kept as is. -/
def correctedReplBlock (fileLines : List Text) (startIdx : Nat)
    (repl : Text) : Text :=
  let currentIndent := (fileLines.getD startIdx []).takeWhile isPySpace
  let replaceLines := splitlinesPy repl
  if replaceLines ≠ [] ∧ currentIndent ≠ [] ∧
      startsWithSpaceTab (replaceLines.headD []) = false then
    joinWith '\n' (replaceLines.map (fun l => currentIndent ++ l))
  else repl

/-- The file reconstruction of the fuzzy phase (workspace_manager.py,
lines 242-252): pre-window lines joined and newline-terminated when
non-empty, then the (indent-corrected) replacement block, then — only
when the joined trailing lines are non-empty — a separating newline
(only when the block is non-empty and does not already end in one)
followed by the joined trailing lines. -/
def fuzzyReconstruct (fileLines : List Text) (startIdx nSearch : Nat)
    (repl : Text) : Text :=
  let replBlock := correctedReplBlock fileLines startIdx repl
  let preContent := joinWith '\n' (fileLines.take startIdx)
  let postContent := joinWith '\n' (fileLines.drop (startIdx + nSearch))
  let afterPre := if preContent ≠ [] then preContent ++ ['\n'] else []
  let beforePost := afterPre ++ replBlock
  if postContent ≠ [] then
    beforePost ++
      (if replBlock.getLast? ≠ some '\n' ∧ replBlock ≠ [] then ['\n'] else []) ++
      postContent
  else beforePost

/-- Strategy B of `apply_file_edit` (workspace_manager.py, lines
192-257): split file and search block into lines, strip both sides,
reject an empty search block, scan for whitespace-insensitive windows,
and rewrite the unique window. -/
def applyFuzzy (content search repl : Text) : EditResult :=
  if ((splitlinesPy search).map stripPy).length = 0 then
    .err .emptySearch
  else
    match fuzzyMatches ((splitlinesPy content).map stripPy)
        ((splitlinesPy search).map stripPy) with
    | [] => .err .noMatch
    | [startIdx] =>
      .fuzzyOk (fuzzyReconstruct (splitlinesPy content) startIdx
        ((splitlinesPy search).map stripPy).length repl)
    | _ => .err .ambiguousFuzzy

/-- `WorkspaceManager.apply_file_edit` after the file content has been
loaded (workspace_manager.py, lines 176-257).  Exact phase (Strategy
A): if `search` occurs as a literal substring, more than one
non-overlapping occurrence is an ambiguous-exact error, otherwise the
first occurrence is replaced.  Otherwise the fuzzy phase (Strategy B)
runs. -/
def applyFileEdit (content search repl : Text) : EditResult :=
  if isSubstrOf search content then
    if countOcc content search > 1 then
      .err .ambiguousExact
    else
      .exactOk (replaceOnce content search repl)
  else
    applyFuzzy content search repl

/-- The file content after an `apply_file_edit` call: the new content on
success, the original content on any structured error (the code returns
before writing). -/
def resultingContent (orig : Text) : EditResult → Text
  | .exactOk c => c
  | .fuzzyOk c => c
  | .err _ => orig

/-! ## Path sandboxing (`WorkspaceManager._resolve_and_check_path`)

Paths are modelled component-wise: an absolute path is a list of
components (each a `Text` without `'/'`), rendered to its POSIX string
by `pathChars`.  `os.path.realpath` on a symlink-free tree is lexical
normalization of the absolute path: empty and `"."` components vanish
and `".."` removes the preceding component (at the root it stays at the
root, as `realpath` does). -/

/-- Normalization worker: `acc` is the already-normalized prefix. -/
def normAux : List Text → List Text → List Text
  | acc, [] => acc
  | acc, c :: rest =>
    if c = ".".toList ∨ c = [] then
      normAux acc rest
    else if c = "..".toList then
      normAux acc.dropLast rest
    else
      normAux (acc ++ [c]) rest

/-- Lexical canonicalization of an absolute path given by components. -/
def normalizePath (comps : List Text) : List Text := normAux [] comps

/-- The POSIX string of an absolute path: `[] ↦ "/"`,
`["x","ws"] ↦ "/x/ws"`. -/
def pathChars (comps : List Text) : Text := '/' :: joinWith '/' comps

/-- Result of `_resolve_and_check_path`: the resolved absolute path, or
the security error (in which case the caller performs no file
operation). -/
inductive ResolveResult where
  | ok (fullPath : List Text)
  | escapeError
  deriving DecidableEq, Repr

/-- `WorkspaceManager._resolve_and_check_path` (workspace_manager.py,
lines 12-29) for a set workspace.  `root` is the canonical workspace
root (`os.path.realpath(self.workspace_path)`), `rel` the relative path
by components.  The code computes
`os.path.realpath(os.path.join(root, rel))` and accepts exactly when
the resulting path STRING starts with the root's string
(`full_path.startswith(workspace_root)`). -/
def resolveAndCheckPath (root rel : List Text) : ResolveResult :=
  let fullPath := normalizePath (root ++ rel)
  if (pathChars root).isPrefixOf (pathChars fullPath) then
    .ok fullPath
  else
    .escapeError

/-- Containment of a canonical path below (or at) a canonical root,
component-wise: the meaning of "lies inside the workspace root". -/
def isWithinRoot (root fullPath : List Text) : Bool :=
  root.isPrefixOf fullPath

/-- A canonical root is a realpath result: no `"."`, `".."` or empty
components. -/
abbrev cleanRoot (root : List Text) : Prop :=
  ∀ c ∈ root, c ≠ ".".toList ∧ c ≠ "..".toList ∧ c ≠ []

/-! ## Directory listing (`WorkspaceManager.list_files`) -/

/-- Python string `<=`: lexicographic comparison by code point, a
proper prefix being smaller. -/
def lexLe : Text → Text → Bool
  | [], _ => true
  | _ :: _, [] => false
  | a :: as, b :: bs => if a = b then lexLe as bs else decide (a < b)

/-- One entry of `os.listdir` plus its `os.path.isdir` flag. -/
structure DirEntry where
  name : Text
  isDir : Bool
  deriving DecidableEq, Repr

/-- Ordering of directory entries by name, as `sorted(os.listdir(...))`
uses. -/
def entryLe (a b : DirEntry) : Prop := lexLe a.name b.name = true

instance : DecidableRel entryLe := fun a b => by
  unfold entryLe
  infer_instance

/-- Python `entry.startswith('.')`. -/
def startsWithDot : Text → Bool
  | [] => false
  | c :: _ => c == '.'

/-- `WorkspaceManager.list_files` (workspace_manager.py, lines 87-107)
on a successfully listed directory: sort the raw entries by name, drop
hidden entries (leading `'.'`), render directories with a trailing
`'/'`. -/
def listFilesResult (entries : List DirEntry) : List Text :=
  ((List.insertionSort entryLe entries).filter
      (fun e => !startsWithDot e.name)).map
    (fun e => if e.isDir then e.name ++ ['/'] else e.name)

/-! ## Tool dispatch (`ToolExecutor._execute_tool`)

The workspace operation behind a dispatched call is an oracle
`fsOp : Text → ArgMap → ExecOutcome`; `ExecOutcome.raised` models a
Python exception escaping the operation (the dispatcher catches
`TypeError` and `Exception` alike and returns a structured failure, so
the two `except` arms collapse to one wrap here).  Error payload texts
are abbreviated; only their success flag and identity matter. -/

/-- A Python argument value (string, or any other JSON-decoded value,
left opaque). -/
inductive PyVal where
  | str (s : Text)
  | other (tag : Nat)
  deriving DecidableEq, Repr

/-- A keyword-argument mapping, keys in insertion order. -/
abbrev ArgMap := List (Text × PyVal)

/-- The structured result dict every tool operation returns. -/
structure ToolResult where
  success : Bool
  info : Text
  deriving DecidableEq, Repr

/-- Outcome of the underlying workspace operation: a returned result
dict, or an exception escaping it. -/
inductive ExecOutcome where
  | normal (r : ToolResult)
  | raised (msg : Text)
  deriving DecidableEq, Repr

/-- The fixed tool registry (`ToolExecutor.tool_map`) with each
operation's keyword parameters, from the `WorkspaceManager` method
signatures. -/
def toolRegistry : List (Text × List Text) :=
  [("list_files".toList, ["path".toList]),
   ("read_file".toList, ["path".toList]),
   ("write_file".toList, ["path".toList, "content".toList]),
   ("create_directory".toList, ["path".toList]),
   ("delete_file".toList, ["path".toList]),
   ("apply_file_edit".toList,
     ["path".toList, "search_block".toList, "replace_block".toList])]

/-- Keyword lookup in an argument mapping. -/
def lookupArg (key : Text) (args : ArgMap) : Option PyVal :=
  (args.find? (fun kv => kv.1 == key)).map Prod.snd

/-- Whether `f(**args)` binds for a signature with parameters `params`:
every parameter is supplied and no unexpected keyword is present
(a failure raises `TypeError` in Python). -/
def argsMatch (params : List Text) (args : ArgMap) : Bool :=
  params.all (fun p => (lookupArg p args).isSome) &&
    args.all (fun kv => params.contains kv.1)

/-- The dispatcher's defaulting step (tool_executor.py, lines 53-55):
a `list_files` call without a `path` argument gets `path = "."`
appended; all other calls pass through unchanged. -/
def defaultedArgs (name : Text) (args : ArgMap) : ArgMap :=
  if name == "list_files".toList && (lookupArg "path".toList args).isNone then
    args ++ [("path".toList, PyVal.str ".".toList)]
  else args

/-- `ToolExecutor._execute_tool` (tool_executor.py, lines 47-62):
unknown names fail without consulting the filesystem oracle; a missing
`path` for `list_files` is defaulted to `"."`; a keyword-binding
failure is an argument-mismatch error; an exception from the operation
is caught and wrapped — the returned value is always a structured
`ToolResult`. -/
def executeTool (fsOp : Text → ArgMap → ExecOutcome) (name : Text)
    (args : ArgMap) : ToolResult :=
  match toolRegistry.find? (fun kv => kv.1 == name) with
  | none => ⟨false, "Unknown tool".toList⟩
  | some entry =>
    if argsMatch entry.2 (defaultedArgs name args) then
      match fsOp name (defaultedArgs name args) with
      | .normal r => r
      | .raised _ => ⟨false, "Error executing tool".toList⟩
    else
      ⟨false, "Argument mismatch".toList⟩

/-! ## Orchestration loop (`TextualCLI.process_bot_turn`)

The model is an oracle from the current history to a response; tool
execution is an oracle from a call to its result dict.  One fuel unit
is one `while` iteration, so `MAX_LOOPS` fuel reproduces the
`loop_count < MAX_LOOPS` guard exactly. -/

/-- A tool call as recorded in the assistant message: the call id the
history will use, and the function name as parsed by
`ToolExecutor.process_tool_call` (`none` models both an absent and an
empty name, the falsy cases of `if name:`). -/
structure ToolCallMsg where
  id : Text
  name : Option Text
  deriving DecidableEq, Repr

/-- A provider-neutral conversation message (`self.messages` entries in
main.py). -/
inductive Msg where
  | system (content : Text)
  | user (content : Text)
  | assistantText (content : Text)
  | assistantCalls (calls : List ToolCallMsg)
  | toolResult (callId : Text) (name : Text) (result : ToolResult)
  deriving DecidableEq, Repr

/-- Truthiness of the parsed function name (`if name:` in main.py,
line 290): `None` and `""` are falsy. -/
def truthyName : Option Text → Bool
  | some (_ :: _) => true
  | _ => false

/-- The tool-result messages appended for one batch (main.py, lines
286-292): one `role:"tool"` message per call whose parsed name is
truthy, in batch order, carrying the call's id. -/
def batchToolMessages (exec : ToolCallMsg → ToolResult)
    (calls : List ToolCallMsg) : List Msg :=
  calls.filterMap (fun tc =>
    match tc.name with
    | some (c :: rest) => some (.toolResult tc.id (c :: rest) (exec tc))
    | _ => none)

/-- One response of the model oracle: transport failure, a batch of
tool calls, or plain text. -/
inductive ModelResponse where
  | failure
  | toolCalls (calls : List ToolCallMsg)
  | text (content : Text)

/-- The safety bound of the autonomous loop (main.py, line 247). -/
def MAX_LOOPS : Nat := 15

/-- Result of one bot turn: the final history plus how many model
round-trips were made and how many tool batches were executed. -/
structure TurnResult where
  messages : List Msg
  apiCalls : Nat
  toolBatches : Nat
  deriving DecidableEq, Repr

/-- The `while keep_running and loop_count < MAX_LOOPS` loop of
`process_bot_turn` (main.py, lines 251-317): each iteration makes one
model call; a transport failure breaks; a tool-call response appends
the assistant message and the batch's tool results and continues; a
text response appends the assistant text and ends the turn (with or
without the completion marker). -/
def loopAux (model : List Msg → ModelResponse) (exec : ToolCallMsg → ToolResult) :
    Nat → List Msg → Nat → Nat → TurnResult
  | 0, msgs, api, batches => ⟨msgs, api, batches⟩
  | fuel + 1, msgs, api, batches =>
    match model msgs with
    | .failure => ⟨msgs, api + 1, batches⟩
    | .toolCalls calls =>
      loopAux model exec fuel
        (msgs ++ Msg.assistantCalls calls :: batchToolMessages exec calls)
        (api + 1) (batches + 1)
    | .text content => ⟨msgs ++ [Msg.assistantText content], api + 1, batches⟩

/-- `TextualCLI.process_bot_turn`'s autonomous loop from a fresh turn. -/
def processBotTurn (model : List Msg → ModelResponse)
    (exec : ToolCallMsg → ToolResult) (msgs : List Msg) : TurnResult :=
  loopAux model exec MAX_LOOPS msgs 0 0

/-! ## Family-B coalescing (`APIClient._transform_messages_for_google`,
lines 149-164) -/

/-- Roles of the nested-contents schema after the per-message pass. -/
inductive GRole where
  | user
  | model
  | function
  deriving DecidableEq, Repr

/-- One entry of the transformed list: a role and its typed parts
(parts are opaque here). -/
structure GEntry (α : Type) where
  role : GRole
  parts : List α
  deriving DecidableEq, Repr

/-- The coalescing pass: every maximal run of consecutive
`function`-role entries becomes one `function` entry whose parts are
the concatenation of the run's parts in order; other entries are
copied through. -/
def coalesceFunctionRuns {α : Type} : List (GEntry α) → List (GEntry α)
  | [] => []
  | e :: rest =>
    if e.role = .function then
      ⟨.function,
        e.parts ++ ((rest.takeWhile (fun x => x.role == .function)).map GEntry.parts).flatten⟩
        :: coalesceFunctionRuns (rest.dropWhile (fun x => x.role == .function))
    else
      e :: coalesceFunctionRuns rest
termination_by l => l.length
decreasing_by
  · have h := (List.dropWhile_suffix (fun x : GEntry α => x.role == GRole.function)
      (l := rest)).length_le
    simp only [List.length_cons]
    omega
  · simp only [List.length_cons]
    omega

/-! ## Claim-statement vocabulary

Definitions used only to state claims: occurrence positions of a
substring, the spec's wording of the fuzzy reconstruction, chain
sortedness, and concrete oracles for witnesses. -/

/-- The positions at which `search` occurs as a literal substring of
`content` (occurrences may overlap). -/
def occIndices (content search : Text) : List Nat :=
  (List.range (content.length + 1)).filter
    (fun i => search.isPrefixOf (content.drop i))

/-- Modelled from the spec: the reconstruction claimed for the fuzzy
phase, read literally — "the lines before the window joined by newline,
then a newline, then the replacement block, then, if trailing lines
exist, a newline followed by the remaining lines joined by newline". -/
def claimedReconstruction (fileLines : List Text) (i n : Nat)
    (replBlock : Text) : Text :=
  joinWith '\n' (fileLines.take i) ++ ['\n'] ++ replBlock ++
    (if fileLines.drop (i + n) ≠ [] then
       '\n' :: joinWith '\n' (fileLines.drop (i + n))
     else [])

/-- A list of texts is in (weakly) sorted order: each entry is `≤` its
successor. -/
def chainSortedBy (le : Text → Text → Bool) : List Text → Bool
  | [] => true
  | [_] => true
  | a :: b :: rest => le a b && chainSortedBy le (b :: rest)

/-- Strip the `'/'` suffix a listed directory entry received, giving
back the underlying name. -/
def undecorate (s : Text) : Text :=
  if s.getLast? = some '/' then s.dropLast else s

/-- A model oracle that always returns the same one-call batch. -/
def constCallsModel : List Msg → ModelResponse :=
  fun _ => .toolCalls [⟨"call_0".toList, some "list_files".toList⟩]

/-- A tool executor oracle that always succeeds. -/
def unitExec : ToolCallMsg → ToolResult := fun _ => ⟨true, []⟩

/-- A filesystem oracle whose operations all return success. -/
def okOracle : Text → ArgMap → ExecOutcome := fun _ _ => .normal ⟨true, []⟩

/-- A filesystem oracle whose operations all raise. -/
def raiseOracle : Text → ArgMap → ExecOutcome :=
  fun _ _ => .raised "boom".toList

/-- A filesystem oracle that reports back whether it received a `path`
argument. -/
def pathProbeOracle : Text → ArgMap → ExecOutcome :=
  fun _ args =>
    match lookupArg "path".toList args with
    | some (.str s) => .normal ⟨true, s⟩
    | _ => .normal ⟨false, []⟩

/-! ## Exact-phase lemmas -/

/-- Python counts the empty pattern once at every position of the
text. -/
theorem countOcc_nil_pattern (content : Text) :
    countOcc content [] = content.length + 1 := by
  show countOccAux [] content 0 = content.length + 1
  induction content with
  | nil => rfl
  | cons c t ih =>
    rw [countOccAux, if_pos rfl, if_pos (by rfl)]
    simp [ih]
    omega

/-- A positive non-overlapping count means the pattern occurs as a
substring. -/
theorem isSubstrOf_of_countOcc_pos :
    ∀ (content search : Text), 0 < countOcc content search →
      isSubstrOf search content = true := by
  intro content
  induction content with
  | nil =>
    intro search h
    by_cases hs : search = []
    · subst hs; rfl
    · simp [countOcc, countOccAux, hs] at h
  | cons c t ih =>
    intro search h
    by_cases hp : search.isPrefixOf (c :: t) = true
    · simp [isSubstrOf, hp]
    · rw [countOcc, countOccAux] at h
      simp only [if_pos rfl, if_neg hp] at h
      simp [isSubstrOf, ih search h]

/-- The exact phase fails with the ambiguous-exact error whenever the
non-overlapping count exceeds one. -/
theorem ambiguousExact_of_count (content search repl : Text)
    (h : 1 < countOcc content search) :
    applyFileEdit content search repl = .err .ambiguousExact := by
  have hsub : isSubstrOf search content = true :=
    isSubstrOf_of_countOcc_pos content search (by omega)
  unfold applyFileEdit
  rw [if_pos hsub, if_pos h]

/-- C2: when the search block has more than one non-overlapping
occurrence in the file content, `apply_file_edit` fails with the
ambiguous-exact error, the content is unchanged, and the outcome is the
exact-phase error (no fuzzy-phase outcome is ever produced for such a
call). -/
theorem exact_count_ambiguous_fails (content search repl : Text)
    (h : 1 < countOcc content search) :
    applyFileEdit content search repl = .err .ambiguousExact ∧
    resultingContent content (applyFileEdit content search repl) = content := by
  have h1 := ambiguousExact_of_count content search repl h
  refine ⟨h1, ?_⟩
  rw [h1]
  rfl

/-- Witness for `exact_count_ambiguous_fails`: `"ab"` occurs twice in
`"abab"`. -/
theorem exact_count_ambiguous_fails_witness :
    1 < countOcc "abab".toList "ab".toList ∧
    (applyFileEdit "abab".toList "ab".toList "X".toList = .err .ambiguousExact ∧
      resultingContent "abab".toList
        (applyFileEdit "abab".toList "ab".toList "X".toList) = "abab".toList) :=
  ⟨by decide, exact_count_ambiguous_fails "abab".toList "ab".toList "X".toList (by decide)⟩

/-- C2 counterexample: `"aa"` occurs as a literal substring of `"aaa"`
at two positions (more than once), yet the call does not fail — the
code counts non-overlapping occurrences, finds one, and rewrites the
file through the exact phase. -/
theorem exact_overlap_not_ambiguous :
    1 < (occIndices "aaa".toList "aa".toList).length ∧
    countOcc "aaa".toList "aa".toList = 1 ∧
    applyFileEdit "aaa".toList "aa".toList "b".toList = .exactOk "ba".toList ∧
    resultingContent "aaa".toList
      (applyFileEdit "aaa".toList "aa".toList "b".toList) ≠ "aaa".toList := by
  decide

/-- C4: an empty search block against a non-empty file is counted at
every position in the exact phase (count = length + 1 > 1), so the call
fails with the ambiguous-exact structured error — not a crash — and the
content is unchanged. -/
theorem empty_search_ambiguous_exact (content repl : Text) (h : content ≠ []) :
    countOcc content [] = content.length + 1 ∧
    1 < countOcc content [] ∧
    applyFileEdit content [] repl = .err .ambiguousExact ∧
    resultingContent content (applyFileEdit content [] repl) = content := by
  have hcount : 1 < countOcc content [] := by
    rw [countOcc_nil_pattern]
    cases content with
    | nil => exact absurd rfl h
    | cons c t => simp
  have h1 := ambiguousExact_of_count content [] repl hcount
  refine ⟨countOcc_nil_pattern content, hcount, h1, ?_⟩
  rw [h1]
  rfl

/-- Witness for `empty_search_ambiguous_exact` at the one-character file
`"a"`. -/
theorem empty_search_ambiguous_exact_witness :
    "a".toList ≠ ([] : Text) ∧
    (countOcc "a".toList [] = "a".toList.length + 1 ∧
      1 < countOcc "a".toList [] ∧
      applyFileEdit "a".toList [] "X".toList = .err .ambiguousExact ∧
      resultingContent "a".toList (applyFileEdit "a".toList [] "X".toList) = "a".toList) :=
  ⟨by decide, empty_search_ambiguous_exact "a".toList "X".toList (by decide)⟩

/-! ## Path-sandbox lemmas -/

/-- One normalization step over an ordinary component. -/
theorem normAux_skip (acc : List Text) (c : Text) (rest : List Text)
    (h1 : ¬(c = ".".toList ∨ c = [])) (h2 : c ≠ "..".toList) :
    normAux acc (c :: rest) = normAux (acc ++ [c]) rest := by
  show (if c = ".".toList ∨ c = [] then normAux acc rest
    else if c = "..".toList then normAux acc.dropLast rest
    else normAux (acc ++ [c]) rest) = normAux (acc ++ [c]) rest
  rw [if_neg h1, if_neg h2]

/-- One normalization step over a `".."` component. -/
theorem normAux_dotdot (acc rest : List Text) :
    normAux acc ("..".toList :: rest) = normAux acc.dropLast rest := by
  show (if "..".toList = ".".toList ∨ "..".toList = ([] : Text) then normAux acc rest
    else if "..".toList = "..".toList then normAux acc.dropLast rest
    else normAux (acc ++ ["..".toList]) rest) = normAux acc.dropLast rest
  rw [if_neg (by decide), if_pos rfl]

/-- Normalization walks past an already-canonical prefix, accumulating
it unchanged. -/
theorem normAux_append_clean :
    ∀ (l acc rest : List Text),
      (∀ c ∈ l, c ≠ ".".toList ∧ c ≠ "..".toList ∧ c ≠ []) →
      normAux acc (l ++ rest) = normAux (acc ++ l) rest := by
  intro l
  induction l with
  | nil =>
    intro acc rest _
    simp
  | cons c t ih =>
    intro acc rest h
    have hc := h c (List.mem_cons_self c t)
    rw [List.cons_append]
    rw [normAux_skip acc c _ (by push_neg; exact ⟨hc.1, hc.2.2⟩) hc.2.1]
    rw [ih (acc ++ [c]) rest (fun x hx => h x (List.mem_cons_of_mem c hx))]
    simp

/-- The two-or-more element step of `joinWith`. -/
theorem joinWith_cons_cons (sep : Char) (x x' : Text) (ls : List Text) :
    joinWith sep (x :: x' :: ls) = x ++ sep :: joinWith sep (x' :: ls) := rfl

/-- Joining around an append with a separator, both sides non-empty. -/
theorem joinWith_append (sep : Char) :
    ∀ (a b : List Text), a ≠ [] → b ≠ [] →
      joinWith sep (a ++ b) = joinWith sep a ++ sep :: joinWith sep b := by
  intro a
  induction a with
  | nil =>
    intro b h _
    exact absurd rfl h
  | cons x xs ih =>
    intro b _ hb
    cases xs with
    | nil =>
      cases b with
      | nil => exact absurd rfl hb
      | cons y ys => rfl
    | cons x' xs' =>
      have hrec := ih b (by simp) hb
      calc joinWith sep ((x :: x' :: xs') ++ b)
          = x ++ sep :: joinWith sep ((x' :: xs') ++ b) := by
            rw [List.cons_append, List.cons_append]
            exact joinWith_cons_cons sep x x' (xs' ++ b)
        _ = x ++ sep :: (joinWith sep (x' :: xs') ++ sep :: joinWith sep b) := by
            rw [hrec]
        _ = (joinWith sep (x :: x' :: xs')) ++ sep :: joinWith sep b := by
            rw [joinWith_cons_cons]
            simp

/-- C1 counterexample: from workspace root `/x/ws`, the relative path
`../ws2` canonicalizes to the sibling directory `/x/ws2`, which lies
outside the root, yet `_resolve_and_check_path` accepts it because the
path string `/x/ws2` starts with the root string `/x/ws`; moreover
`../../etc/passwd` from the root `/` resolves successfully, so the
escape check does not fail from every workspace root. -/
theorem resolve_sibling_escape_accepted :
    resolveAndCheckPath ["x".toList, "ws".toList] ["..".toList, "ws2".toList] =
      .ok ["x".toList, "ws2".toList] ∧
    isWithinRoot ["x".toList, "ws".toList] ["x".toList, "ws2".toList] = false ∧
    resolveAndCheckPath []
        ["..".toList, "..".toList, "etc".toList, "passwd".toList] =
      .ok ["etc".toList, "passwd".toList] := by
  decide

/-- C1 (amended): for a canonical workspace root, resolution fails with
the escape error exactly when the canonical result's path string does
not start with the root's path string (so canonical results outside the
root that share its string as a prefix are accepted), and
`sub/dir/../file.txt` resolves successfully to `<root>/sub/file.txt`. -/
theorem resolve_guard_characterization (root rel : List Text)
    (hroot : cleanRoot root) :
    (resolveAndCheckPath root rel = .escapeError ↔
      (pathChars root).isPrefixOf (pathChars (normalizePath (root ++ rel))) = false) ∧
    resolveAndCheckPath root
        ["sub".toList, "dir".toList, "..".toList, "file.txt".toList] =
      .ok (root ++ ["sub".toList, "file.txt".toList]) := by
  constructor
  · unfold resolveAndCheckPath
    by_cases hp : (pathChars root).isPrefixOf
        (pathChars (normalizePath (root ++ rel))) = true
    · rw [if_pos hp]
      simp [hp]
    · have hp2 : (pathChars root).isPrefixOf
          (pathChars (normalizePath (root ++ rel))) = false := by
        cases hb : (pathChars root).isPrefixOf
            (pathChars (normalizePath (root ++ rel))) with
        | false => rfl
        | true => exact absurd hb hp
      rw [if_neg hp]
      simp [hp2]
  · have hstep : ∀ acc : List Text,
        normAux acc ["sub".toList, "dir".toList, "..".toList, "file.txt".toList] =
          acc ++ ["sub".toList, "file.txt".toList] := by
      intro acc
      rw [normAux_skip _ _ _ (by decide) (by decide)]
      rw [normAux_skip _ _ _ (by decide) (by decide)]
      rw [normAux_dotdot, List.dropLast_concat]
      rw [normAux_skip _ _ _ (by decide) (by decide)]
      show (acc ++ ["sub".toList]) ++ ["file.txt".toList] =
        acc ++ ["sub".toList, "file.txt".toList]
      simp
    have hnorm : normalizePath
        (root ++ ["sub".toList, "dir".toList, "..".toList, "file.txt".toList]) =
        root ++ ["sub".toList, "file.txt".toList] := by
      unfold normalizePath
      rw [normAux_append_clean root [] _ hroot]
      exact hstep root
    have hpref : (pathChars root).isPrefixOf
        (pathChars (root ++ ["sub".toList, "file.txt".toList])) = true := by
      apply (List.isPrefixOf_iff_prefix).mpr
      cases root with
      | nil => exact ⟨joinWith '/' ["sub".toList, "file.txt".toList], rfl⟩
      | cons r rs =>
        rw [pathChars, pathChars,
          joinWith_append '/' (r :: rs) _ (by simp) (by simp)]
        exact ⟨'/' :: joinWith '/' ["sub".toList, "file.txt".toList], by simp⟩
    unfold resolveAndCheckPath
    rw [hnorm, if_pos hpref]

/-- Witness for `resolve_guard_characterization` at root `/x/ws`
(also checking the guard direction at `../../etc/passwd`). -/
theorem resolve_guard_characterization_witness :
    cleanRoot ["x".toList, "ws".toList] ∧
    ((resolveAndCheckPath ["x".toList, "ws".toList]
          ["..".toList, "..".toList, "etc".toList, "passwd".toList] = .escapeError ↔
        (pathChars ["x".toList, "ws".toList]).isPrefixOf
          (pathChars (normalizePath (["x".toList, "ws".toList] ++
            ["..".toList, "..".toList, "etc".toList, "passwd".toList]))) = false) ∧
      resolveAndCheckPath ["x".toList, "ws".toList]
          ["sub".toList, "dir".toList, "..".toList, "file.txt".toList] =
        .ok (["x".toList, "ws".toList] ++ ["sub".toList, "file.txt".toList])) :=
  ⟨by decide,
    resolve_guard_characterization ["x".toList, "ws".toList]
      ["..".toList, "..".toList, "etc".toList, "passwd".toList] (by decide)⟩

/-! ## Tool-dispatch theorems -/

/-- C6 counterexample: the fixed registry holds six operations, not
five — the sixth, `apply_file_edit`, dispatches normally. -/
theorem registry_has_six_tools :
    toolRegistry.length = 6 ∧ ¬ toolRegistry.length = 5 ∧
    executeTool okOracle "apply_file_edit".toList
        [("path".toList, .str "p".toList),
         ("search_block".toList, .str "s".toList),
         ("replace_block".toList, .str "r".toList)] = ⟨true, []⟩ := by
  decide

/-- C6 (amended): dispatch over the six-operation registry — an
unregistered name fails with the unknown-tool error for every
filesystem oracle (so no filesystem operation is consulted); a
keyword-binding mismatch fails with the argument-mismatch error; a
`list_files` call with no arguments reaches the operation with
`path = "."`; and an exception raised by the underlying operation is
converted into a `success = false` structured result. -/
theorem dispatcher_error_containment :
    (∀ (fsOp : Text → ArgMap → ExecOutcome) (name : Text) (args : ArgMap),
        toolRegistry.find? (fun kv => kv.1 == name) = none →
        executeTool fsOp name args = ⟨false, "Unknown tool".toList⟩) ∧
    (∀ (fsOp : Text → ArgMap → ExecOutcome) (name : Text) (args : ArgMap)
        (entry : Text × List Text),
        toolRegistry.find? (fun kv => kv.1 == name) = some entry →
        argsMatch entry.2 (defaultedArgs name args) = false →
        executeTool fsOp name args = ⟨false, "Argument mismatch".toList⟩) ∧
    (∀ fsOp : Text → ArgMap → ExecOutcome,
        executeTool fsOp "list_files".toList [] =
          match fsOp "list_files".toList [("path".toList, PyVal.str ".".toList)] with
          | .normal r => r
          | .raised _ => ⟨false, "Error executing tool".toList⟩) ∧
    (∀ (fsOp : Text → ArgMap → ExecOutcome) (name : Text) (args : ArgMap)
        (msg : Text),
        fsOp name (defaultedArgs name args) = .raised msg →
        (executeTool fsOp name args).success = false) := by
  refine ⟨?_, ?_, ?_, ?_⟩
  · intro fsOp name args h
    unfold executeTool
    rw [h]
  · intro fsOp name args entry h1 h2
    unfold executeTool
    rw [h1]
    simp [h2]
  · intro fsOp
    have hred : executeTool fsOp "list_files".toList [] =
        if argsMatch ["path".toList]
            [("path".toList, PyVal.str ".".toList)] = true then
          match fsOp "list_files".toList
              [("path".toList, PyVal.str ".".toList)] with
          | .normal r => r
          | .raised _ => ⟨false, "Error executing tool".toList⟩
        else ⟨false, "Argument mismatch".toList⟩ := rfl
    rw [hred, if_pos (by decide)]
  · intro fsOp name args msg h
    unfold executeTool
    cases hfind : toolRegistry.find? (fun kv => kv.1 == name) with
    | none => rfl
    | some entry =>
      show (if argsMatch entry.2 (defaultedArgs name args) = true then
          match fsOp name (defaultedArgs name args) with
          | ExecOutcome.normal r => r
          | ExecOutcome.raised _ => ⟨false, "Error executing tool".toList⟩
        else ⟨false, "Argument mismatch".toList⟩).success = false
      by_cases hm : argsMatch entry.2 (defaultedArgs name args) = true
      · rw [if_pos hm, h]
      · rw [if_neg hm]

/-- Witness for `dispatcher_error_containment`: each conjunct applied to
a concrete oracle and call. -/
theorem dispatcher_error_containment_witness :
    executeTool raiseOracle "bogus".toList [] =
        ⟨false, "Unknown tool".toList⟩ ∧
    executeTool okOracle "read_file".toList [] =
        ⟨false, "Argument mismatch".toList⟩ ∧
    (executeTool pathProbeOracle "list_files".toList [] =
      match pathProbeOracle "list_files".toList
          [("path".toList, PyVal.str ".".toList)] with
      | .normal r => r
      | .raised _ => ⟨false, "Error executing tool".toList⟩) ∧
    (executeTool raiseOracle "delete_file".toList
        [("path".toList, PyVal.str "f".toList)]).success = false :=
  ⟨dispatcher_error_containment.1 raiseOracle "bogus".toList [] (by decide),
   dispatcher_error_containment.2.1 okOracle "read_file".toList []
     ("read_file".toList, ["path".toList]) (by decide) (by decide),
   dispatcher_error_containment.2.2.1 pathProbeOracle,
   dispatcher_error_containment.2.2.2 raiseOracle "delete_file".toList
     [("path".toList, PyVal.str "f".toList)] "boom".toList (by decide)⟩

/-! ## Orchestration theorems -/

/-- C5 counterexample: a batch containing a single tool call whose
function name cannot be parsed (`if name:` is falsy) appends no
tool-result message at all — the call id `call_0` is never answered
before the next model invocation. -/
theorem nameless_call_unanswered :
    batchToolMessages unitExec [⟨"call_0".toList, none⟩] = [] ∧
    [(⟨"call_0".toList, none⟩ : ToolCallMsg)].length = 1 ∧
    batchToolMessages unitExec [⟨"call_0".toList, some []⟩] = [] := by
  decide

/-- C5 (amended): in a batch all of whose calls carry a parseable
non-empty function name, every call is answered by exactly one
tool-result message, in batch order, carrying the matching call id and
name, before the next model invocation. -/
theorem named_calls_answered_once (exec : ToolCallMsg → ToolResult)
    (calls : List ToolCallMsg)
    (h : ∀ c ∈ calls, truthyName c.name = true) :
    batchToolMessages exec calls =
      calls.map (fun tc => Msg.toolResult tc.id (tc.name.getD []) (exec tc)) := by
  induction calls with
  | nil => rfl
  | cons c t ih =>
    have hc := h c (List.mem_cons_self c t)
    have ht := ih (fun x hx => h x (List.mem_cons_of_mem c hx))
    match hn : c.name with
    | none => rw [hn] at hc; exact absurd hc (by decide)
    | some [] => rw [hn] at hc; exact absurd hc (by decide)
    | some (x :: xs) =>
      unfold batchToolMessages at ht ⊢
      rw [List.filterMap_cons, List.map_cons, hn]
      simpa using ht

/-- Witness for `named_calls_answered_once`: a two-call batch with
parseable names. -/
theorem named_calls_answered_once_witness :
    (∀ c ∈ [(⟨"call_0".toList, some "read_file".toList⟩ : ToolCallMsg),
            ⟨"call_1".toList, some "write_file".toList⟩],
        truthyName c.name = true) ∧
    batchToolMessages unitExec
        [⟨"call_0".toList, some "read_file".toList⟩,
         ⟨"call_1".toList, some "write_file".toList⟩] =
      [⟨"call_0".toList, some "read_file".toList⟩,
       (⟨"call_1".toList, some "write_file".toList⟩ : ToolCallMsg)].map
        (fun tc => Msg.toolResult tc.id (tc.name.getD []) (unitExec tc)) :=
  ⟨by decide,
   named_calls_answered_once unitExec
     [⟨"call_0".toList, some "read_file".toList⟩,
      ⟨"call_1".toList, some "write_file".toList⟩] (by decide)⟩

/-- A loop run against a model that always answers with tool calls uses
all its fuel, one model round-trip and one executed batch per
iteration, only ever appending to the history. -/
theorem loopAux_const_toolCalls (model : List Msg → ModelResponse)
    (exec : ToolCallMsg → ToolResult)
    (h : ∀ ms, ∃ cs, model ms = .toolCalls cs) :
    ∀ (fuel : Nat) (msgs : List Msg) (api batches : Nat),
      ∃ suffix, loopAux model exec fuel msgs api batches =
        ⟨msgs ++ suffix, api + fuel, batches + fuel⟩ := by
  intro fuel
  induction fuel with
  | zero =>
    intro msgs api batches
    exact ⟨[], by simp [loopAux]⟩
  | succ n ih =>
    intro msgs api batches
    obtain ⟨cs, hcs⟩ := h msgs
    obtain ⟨s, hs⟩ :=
      ih (msgs ++ Msg.assistantCalls cs :: batchToolMessages exec cs)
        (api + 1) (batches + 1)
    refine ⟨Msg.assistantCalls cs :: batchToolMessages exec cs ++ s, ?_⟩
    rw [loopAux, hcs]
    show loopAux model exec n
        (msgs ++ Msg.assistantCalls cs :: batchToolMessages exec cs)
        (api + 1) (batches + 1) = _
    rw [hs, show api + 1 + n = api + (n + 1) from by omega,
      show batches + 1 + n = batches + (n + 1) from by omega]
    simp [List.append_assoc]

/-- C7: against a model stub that always returns tool calls, the
autonomous loop performs exactly `MAX_LOOPS = 15` model round-trips,
executes exactly 15 tool batches (none beyond the bound), and stops
with the original history preserved as a prefix (nothing discarded). -/
theorem loop_bound_fifteen_roundtrips (model : List Msg → ModelResponse)
    (exec : ToolCallMsg → ToolResult) (msgs : List Msg)
    (h : ∀ ms, ∃ cs, model ms = .toolCalls cs) :
    (processBotTurn model exec msgs).apiCalls = MAX_LOOPS ∧
    (processBotTurn model exec msgs).toolBatches = MAX_LOOPS ∧
    MAX_LOOPS = 15 ∧
    ∃ suffix, (processBotTurn model exec msgs).messages = msgs ++ suffix := by
  obtain ⟨s, hs⟩ := loopAux_const_toolCalls model exec h MAX_LOOPS msgs 0 0
  unfold processBotTurn
  rw [hs]
  exact ⟨by simp, by simp, rfl, ⟨s, rfl⟩⟩

/-- Witness for `loop_bound_fifteen_roundtrips` with the constant
one-call model stub on an empty history. -/
theorem loop_bound_fifteen_roundtrips_witness :
    (∀ ms, ∃ cs, constCallsModel ms = .toolCalls cs) ∧
    ((processBotTurn constCallsModel unitExec []).apiCalls = MAX_LOOPS ∧
      (processBotTurn constCallsModel unitExec []).toolBatches = MAX_LOOPS ∧
      MAX_LOOPS = 15 ∧
      ∃ suffix, (processBotTurn constCallsModel unitExec []).messages =
        [] ++ suffix) :=
  ⟨fun _ => ⟨[⟨"call_0".toList, some "list_files".toList⟩], rfl⟩,
   loop_bound_fifteen_roundtrips constCallsModel unitExec []
     (fun _ => ⟨[⟨"call_0".toList, some "list_files".toList⟩], rfl⟩)⟩

/-! ## List scanning lemmas (shared by the coalescing and patch-engine
theorems) -/

/-- `takeWhile` passes over a fully satisfying prefix. -/
theorem takeWhile_append_all {α : Type} (p : α → Bool) :
    ∀ (l₁ l₂ : List α), (∀ x ∈ l₁, p x = true) →
      (l₁ ++ l₂).takeWhile p = l₁ ++ l₂.takeWhile p := by
  intro l₁
  induction l₁ with
  | nil => simp
  | cons a t ih =>
    intro l₂ h
    rw [List.cons_append, List.takeWhile_cons, if_pos (h a (List.mem_cons_self a t))]
    rw [ih l₂ (fun x hx => h x (List.mem_cons_of_mem a hx))]
    rfl

/-- `dropWhile` passes over a fully satisfying prefix. -/
theorem dropWhile_append_all {α : Type} (p : α → Bool) :
    ∀ (l₁ l₂ : List α), (∀ x ∈ l₁, p x = true) →
      (l₁ ++ l₂).dropWhile p = l₂.dropWhile p := by
  intro l₁
  induction l₁ with
  | nil => simp
  | cons a t ih =>
    intro l₂ h
    rw [List.cons_append, List.dropWhile_cons, if_pos (h a (List.mem_cons_self a t))]
    exact ih l₂ (fun x hx => h x (List.mem_cons_of_mem a hx))

/-- `takeWhile` stops at the head when it falsifies the predicate. -/
theorem takeWhile_head_false {α : Type} (p : α → Bool) (l : List α)
    (h : ∀ b, l.head? = some b → p b = false) : l.takeWhile p = [] := by
  cases l with
  | nil => rfl
  | cons b t =>
    rw [List.takeWhile_cons, if_neg (by simp [h b rfl])]

/-- `dropWhile` keeps everything when the head falsifies the
predicate. -/
theorem dropWhile_head_false {α : Type} (p : α → Bool) (l : List α)
    (h : ∀ b, l.head? = some b → p b = false) : l.dropWhile p = l := by
  cases l with
  | nil => rfl
  | cons b t =>
    rw [List.dropWhile_cons, if_neg (by simp [h b rfl])]

/-- `takeWhile` never reaches past a falsifying element of the first
part. -/
theorem takeWhile_append_stop {α : Type} (p : α → Bool) :
    ∀ (l₁ l₂ : List α), (∃ x ∈ l₁, p x = false) →
      (l₁ ++ l₂).takeWhile p = l₁.takeWhile p := by
  intro l₁
  induction l₁ with
  | nil =>
    intro l₂ h
    simp at h
  | cons a t ih =>
    intro l₂ h
    by_cases hp : p a = true
    · rw [List.cons_append, List.takeWhile_cons, if_pos hp,
        List.takeWhile_cons, if_pos hp]
      obtain ⟨x, hx, hpx⟩ := h
      rcases List.mem_cons.mp hx with rfl | hx'
      · rw [hp] at hpx
        exact absurd hpx (by decide)
      · rw [ih l₂ ⟨x, hx', hpx⟩]
    · rw [List.cons_append, List.takeWhile_cons, if_neg hp,
        List.takeWhile_cons, if_neg hp]

/-- `dropWhile` never reaches past a falsifying element of the first
part. -/
theorem dropWhile_append_stop {α : Type} (p : α → Bool) :
    ∀ (l₁ l₂ : List α), (∃ x ∈ l₁, p x = false) →
      (l₁ ++ l₂).dropWhile p = l₁.dropWhile p ++ l₂ := by
  intro l₁
  induction l₁ with
  | nil =>
    intro l₂ h
    simp at h
  | cons a t ih =>
    intro l₂ h
    by_cases hp : p a = true
    · rw [List.cons_append, List.dropWhile_cons, if_pos hp,
        List.dropWhile_cons, if_pos hp]
      obtain ⟨x, hx, hpx⟩ := h
      rcases List.mem_cons.mp hx with rfl | hx'
      · rw [hp] at hpx
        exact absurd hpx (by decide)
      · exact ih l₂ ⟨x, hx', hpx⟩
    · rw [List.cons_append, List.dropWhile_cons, if_neg hp,
        List.dropWhile_cons, if_neg hp]
      rw [List.cons_append]

/-- Appending a non-empty list on the right determines the last
element. -/
theorem getLast?_append_of_ne {α : Type} (l l' : List α) (h : l' ≠ []) :
    (l ++ l').getLast? = l'.getLast? := by
  rw [List.getLast?_append]
  cases hx : l'.getLast? with
  | none => exact absurd (List.getLast?_eq_none_iff.mp hx) h
  | some x => rfl

/-- A non-empty suffix has the same last element as the whole list. -/
theorem getLast?_of_suffix {α : Type} {l₁ l₂ : List α} (h : l₁ <:+ l₂)
    (hne : l₁ ≠ []) : l₁.getLast? = l₂.getLast? := by
  obtain ⟨t, rfl⟩ := h
  rw [getLast?_append_of_ne t l₁ hne]

/-- Pushing `getLast?` through a cons with a non-empty tail. -/
theorem getLast?_cons_of_ne_nil {α : Type} (a : α) (l : List α) (h : l ≠ []) :
    (a :: l).getLast? = l.getLast? := by
  cases l with
  | nil => exact absurd rfl h
  | cons b t => rw [List.getLast?_cons_cons]

/-- The last element of a list is a member. -/
theorem mem_of_getLast?_eq {α : Type} {l : List α} {a : α}
    (h : l.getLast? = some a) : a ∈ l := by
  induction l with
  | nil => simp at h
  | cons x xs ih =>
    cases xs with
    | nil =>
      simp only [List.getLast?_singleton, Option.some.injEq] at h
      simp [h]
    | cons y ys =>
      rw [List.getLast?_cons_cons] at h
      exact List.mem_cons_of_mem x (ih h)

/-! ## Coalescing-pass theorems -/

/-- A non-`function` entry is copied through unchanged. -/
theorem coalesce_cons_nonfn {α : Type} (e : GEntry α) (rest : List (GEntry α))
    (h : ¬ e.role = .function) :
    coalesceFunctionRuns (e :: rest) = e :: coalesceFunctionRuns rest := by
  rw [coalesceFunctionRuns, if_neg h]

/-- A leading run of `function` entries is merged into one entry whose
parts are the concatenation, and scanning resumes after the run. -/
theorem coalesce_fnrun {α : Type} (R B : List (GEntry α)) (hR : R ≠ [])
    (hall : ∀ e ∈ R, e.role = .function)
    (hB : ∀ b, B.head? = some b → ¬ b.role = .function) :
    coalesceFunctionRuns (R ++ B) =
      ⟨.function, (R.map GEntry.parts).flatten⟩ :: coalesceFunctionRuns B := by
  cases R with
  | nil => exact absurd rfl hR
  | cons r R' =>
    rw [List.cons_append, coalesceFunctionRuns,
      if_pos (hall r (List.mem_cons_self r R'))]
    have hallp : ∀ x ∈ R', (fun x : GEntry α => x.role == GRole.function) x = true := by
      intro x hx
      simp [hall x (List.mem_cons_of_mem r hx)]
    have hBp : ∀ b, B.head? = some b →
        (fun x : GEntry α => x.role == GRole.function) b = false := by
      intro b hb
      simp [hB b hb]
    rw [takeWhile_append_all _ R' B hallp, takeWhile_head_false _ B hBp,
      dropWhile_append_all _ R' B hallp, dropWhile_head_false _ B hBp]
    simp

/-- Coalescing distributes over an append whose left part does not end
inside a `function` run. -/
theorem coalesce_split {α : Type} :
    ∀ (n : Nat) (A X : List (GEntry α)), A.length ≤ n →
      (∀ a, A.getLast? = some a → ¬ a.role = .function) →
      coalesceFunctionRuns (A ++ X) =
        coalesceFunctionRuns A ++ coalesceFunctionRuns X := by
  intro n
  induction n with
  | zero =>
    intro A X hlen _
    have hA : A = [] := by
      cases A with
      | nil => rfl
      | cons a t => simp at hlen
    subst hA
    simp [coalesceFunctionRuns]
  | succ n ih =>
    intro A X hlen hlast
    cases A with
    | nil => simp [coalesceFunctionRuns]
    | cons a A' =>
      by_cases ha : a.role = .function
      · have hA'ne : A' ≠ [] := by
          intro he
          subst he
          exact absurd ha (hlast a rfl)
        have hlastA' : ∀ x, A'.getLast? = some x → ¬ x.role = .function := by
          intro x hx
          apply hlast x
          rw [getLast?_cons_of_ne_nil a A' hA'ne]
          exact hx
        have hex : ∃ x ∈ A',
            (fun x : GEntry α => x.role == GRole.function) x = false := by
          obtain ⟨lx, hlx⟩ : ∃ lx, A'.getLast? = some lx := by
            cases hg : A'.getLast? with
            | none => exact absurd (List.getLast?_eq_none_iff.mp hg) hA'ne
            | some lx => exact ⟨lx, rfl⟩
          refine ⟨lx, mem_of_getLast?_eq hlx, ?_⟩
          simp [hlastA' lx hlx]
        rw [List.cons_append, coalesceFunctionRuns, if_pos ha,
          coalesceFunctionRuns, if_pos ha]
        rw [takeWhile_append_stop _ A' X hex, dropWhile_append_stop _ A' X hex]
        have hdlast : ∀ x,
            (A'.dropWhile (fun x : GEntry α => x.role == GRole.function)).getLast? =
              some x → ¬ x.role = .function := by
          intro x hx
          have hdne : A'.dropWhile (fun x : GEntry α => x.role == GRole.function) ≠ [] := by
            intro he
            rw [he] at hx
            simp at hx
          rw [getLast?_of_suffix (List.dropWhile_suffix _) hdne] at hx
          exact hlastA' x hx
        have hdlen : (A'.dropWhile
            (fun x : GEntry α => x.role == GRole.function)).length ≤ n := by
          have := (List.dropWhile_suffix
            (fun x : GEntry α => x.role == GRole.function) (l := A')).length_le
          simp at hlen
          omega
        rw [ih _ X hdlen hdlast]
        simp
      · rw [List.cons_append, coalesce_cons_nonfn a _ ha, coalesce_cons_nonfn a A' ha]
        have hlastA' : ∀ x, A'.getLast? = some x → ¬ x.role = .function := by
          intro x hx
          apply hlast x
          cases A' with
          | nil => simp at hx
          | cons b t =>
            rw [List.getLast?_cons_cons]
            exact hx
        rw [ih A' X (by simp at hlen; omega) hlastA']
        simp

/-- Coalescing never changes the subsequence of non-`function`
entries. -/
theorem coalesce_filter_nonfn {α : Type} :
    ∀ (n : Nat) (L : List (GEntry α)), L.length ≤ n →
      (coalesceFunctionRuns L).filter (fun e => !(e.role == GRole.function)) =
        L.filter (fun e => !(e.role == GRole.function)) := by
  intro n
  induction n with
  | zero =>
    intro L hlen
    have hL : L = [] := by
      cases L with
      | nil => rfl
      | cons a t => simp at hlen
    subst hL
    simp [coalesceFunctionRuns]
  | succ n ih =>
    intro L hlen
    cases L with
    | nil => simp [coalesceFunctionRuns]
    | cons e rest =>
      by_cases he : e.role = .function
      · rw [coalesceFunctionRuns, if_pos he]
        rw [List.filter_cons, List.filter_cons]
        rw [if_neg (by simp [he]), if_neg (by simp [he])]
        have hdlen : (rest.dropWhile
            (fun x : GEntry α => x.role == GRole.function)).length ≤ n := by
          have := (List.dropWhile_suffix
            (fun x : GEntry α => x.role == GRole.function) (l := rest)).length_le
          simp at hlen
          omega
        rw [ih _ hdlen]
        conv_rhs => rw [← List.takeWhile_append_dropWhile
          (p := fun x : GEntry α => x.role == GRole.function) (l := rest)]
        rw [List.filter_append]
        have : (rest.takeWhile
            (fun x : GEntry α => x.role == GRole.function)).filter
              (fun e => !(e.role == GRole.function)) = [] := by
          rw [List.filter_eq_nil_iff]
          intro x hx
          have := List.mem_takeWhile_imp hx
          simp at this
          simp [this]
        rw [this, List.nil_append]
      · rw [coalesce_cons_nonfn e rest he]
        rw [List.filter_cons, List.filter_cons]
        rw [if_pos (by simp [he]), if_pos (by simp [he])]
        rw [ih rest (by simp at hlen; omega)]

/-- C8: in the Family-B translation's coalescing pass, every maximal
run of consecutive `function`-role entries (non-`function` neighbours
on both sides) is merged into a single `function` entry whose parts are
the concatenation of the run's parts in original order, and the
non-`function` entries are preserved unchanged and in order. -/
theorem function_runs_coalesced {α : Type} :
    (∀ (A R B : List (GEntry α)),
        R ≠ [] → (∀ e ∈ R, e.role = .function) →
        (∀ a, A.getLast? = some a → ¬ a.role = .function) →
        (∀ b, B.head? = some b → ¬ b.role = .function) →
        coalesceFunctionRuns (A ++ (R ++ B)) =
          coalesceFunctionRuns A ++
            ⟨.function, (R.map GEntry.parts).flatten⟩ :: coalesceFunctionRuns B) ∧
    (∀ L : List (GEntry α),
        (coalesceFunctionRuns L).filter (fun e => !(e.role == GRole.function)) =
          L.filter (fun e => !(e.role == GRole.function))) := by
  constructor
  · intro A R B hR hall hlastA hheadB
    rw [coalesce_split A.length A (R ++ B) (Nat.le_refl _) hlastA]
    rw [coalesce_fnrun R B hR hall hheadB]
  · intro L
    exact coalesce_filter_nonfn L.length L (Nat.le_refl _)

/-- Witness for `function_runs_coalesced`: a run of two `function`
entries between a `user` and a `model` entry, and the filter identity on
the same list. -/
theorem function_runs_coalesced_witness :
    coalesceFunctionRuns ([⟨GRole.user, [1]⟩] ++
        ([⟨GRole.function, [2]⟩, ⟨GRole.function, [3, 4]⟩] ++
          [⟨GRole.model, [5]⟩])) =
      coalesceFunctionRuns [⟨GRole.user, [1]⟩] ++
        ⟨GRole.function,
          (([⟨GRole.function, [2]⟩, ⟨GRole.function, [3, 4]⟩] :
            List (GEntry Nat)).map GEntry.parts).flatten⟩ ::
          coalesceFunctionRuns [⟨GRole.model, [5]⟩] ∧
    (coalesceFunctionRuns ([⟨GRole.user, [1]⟩, ⟨GRole.function, [2]⟩] :
        List (GEntry Nat))).filter (fun e => !(e.role == GRole.function)) =
      ([⟨GRole.user, [1]⟩, ⟨GRole.function, [2]⟩] :
        List (GEntry Nat)).filter (fun e => !(e.role == GRole.function)) :=
  ⟨function_runs_coalesced.1 [⟨GRole.user, [1]⟩]
      [⟨GRole.function, [2]⟩, ⟨GRole.function, [3, 4]⟩] [⟨GRole.model, [5]⟩]
      (by simp) (by decide)
      (fun a ha => by
        have h := Option.some.inj ha
        rw [← h]
        decide)
      (fun b hb => by
        have h := Option.some.inj hb
        rw [← h]
        decide),
   function_runs_coalesced.2 [⟨GRole.user, [1]⟩, ⟨GRole.function, [2]⟩]⟩

/-! ## Directory-listing theorems -/

/-- Python string comparison is total. -/
theorem lexLe_total : ∀ a b : Text, lexLe a b = true ∨ lexLe b a = true := by
  intro a
  induction a with
  | nil =>
    intro b
    left
    rfl
  | cons x xs ih =>
    intro b
    cases b with
    | nil =>
      right
      rfl
    | cons y ys =>
      by_cases hxy : x = y
      · subst hxy
        rcases ih ys with h | h
        · left
          show (if x = x then lexLe xs ys else decide (x < x)) = true
          rw [if_pos rfl]
          exact h
        · right
          show (if x = x then lexLe ys xs else decide (x < x)) = true
          rw [if_pos rfl]
          exact h
      · rcases lt_or_gt_of_ne hxy with h | h
        · left
          show (if x = y then lexLe xs ys else decide (x < y)) = true
          rw [if_neg hxy]
          simp [h]
        · right
          show (if y = x then lexLe ys xs else decide (y < x)) = true
          rw [if_neg (Ne.symm hxy)]
          simp [h]

/-- Python string comparison is transitive. -/
theorem lexLe_trans : ∀ a b c : Text,
    lexLe a b = true → lexLe b c = true → lexLe a c = true := by
  intro a
  induction a with
  | nil =>
    intro b c _ _
    rfl
  | cons x xs ih =>
    intro b c hab hbc
    cases b with
    | nil => simp [lexLe] at hab
    | cons y ys =>
      cases c with
      | nil => simp [lexLe] at hbc
      | cons z zs =>
        rw [show lexLe (x :: xs) (y :: ys) =
          (if x = y then lexLe xs ys else decide (x < y)) from rfl] at hab
        rw [show lexLe (y :: ys) (z :: zs) =
          (if y = z then lexLe ys zs else decide (y < z)) from rfl] at hbc
        rw [show lexLe (x :: xs) (z :: zs) =
          (if x = z then lexLe xs zs else decide (x < z)) from rfl]
        by_cases hxy : x = y
        · subst hxy
          rw [if_pos rfl] at hab
          by_cases hxz : x = z
          · subst hxz
            rw [if_pos rfl] at hbc
            rw [if_pos rfl]
            exact ih ys zs hab hbc
          · rw [if_neg hxz] at hbc
            rw [if_neg hxz]
            exact hbc
        · rw [if_neg hxy] at hab
          simp only [decide_eq_true_eq] at hab
          by_cases hyz : y = z
          · subst hyz
            rw [if_neg hxy]
            simp [hab]
          · rw [if_neg hyz] at hbc
            simp only [decide_eq_true_eq] at hbc
            have hxz : x < z := lt_trans hab hbc
            rw [if_neg (ne_of_lt hxz)]
            simp [hxz]

/-- A pairwise-ordered list is chain-sorted. -/
theorem chainSorted_of_pairwise (le : Text → Text → Bool) :
    ∀ l : List Text, List.Pairwise (fun a b => le a b = true) l →
      chainSortedBy le l = true := by
  intro l
  induction l with
  | nil => intro _; rfl
  | cons a t ih =>
    intro h
    cases t with
    | nil => rfl
    | cons b rest =>
      rw [chainSortedBy]
      rw [List.pairwise_cons] at h
      simp [h.1 b (List.mem_cons_self b rest), ih h.2]

/-- Appending the directory marker does not create a leading dot. -/
theorem startsWithDot_append_slash (name : Text) :
    startsWithDot (name ++ ['/']) = startsWithDot name := by
  cases name with
  | nil => decide
  | cons c t => rfl

/-- Undecorating a decorated directory name gives the name back. -/
theorem undecorate_append_slash (name : Text) :
    undecorate (name ++ ['/']) = name := by
  unfold undecorate
  rw [if_pos (List.getLast?_concat name)]
  exact List.dropLast_concat

/-- Undecorating a slash-free file name is the identity. -/
theorem undecorate_no_slash (name : Text) (h : ('/' : Char) ∉ name) :
    undecorate name = name := by
  unfold undecorate
  rw [if_neg]
  intro hl
  exact h (mem_of_getLast?_eq hl)

/-- C10 counterexample: with a directory `a` and a file `a!` the
returned entries are `["a/", "a!"]`, which is not in sorted order —
the names are sorted before the `'/'` suffix is appended, and the
suffix can invert the order (`'!' < '/'`). -/
theorem list_files_decorated_not_sorted :
    listFilesResult [⟨"a!".toList, false⟩, ⟨"a".toList, true⟩] =
      ["a/".toList, "a!".toList] ∧
    chainSortedBy lexLe (listFilesResult
      [⟨"a!".toList, false⟩, ⟨"a".toList, true⟩]) = false := by
  decide

/-- C10 (amended): for every directory whose entry names contain no
`'/'`, the `list_files` result contains no entry beginning with `'.'`;
every returned entry is a directory name suffixed `'/'` or a plain file
name from the listing; and the entries appear in the sorted order of
the underlying names (sorted before decoration — the decorated strings
themselves need not be lexicographically sorted). -/
theorem list_files_hidden_sorted_decorated (entries : List DirEntry)
    (hslash : ∀ e ∈ entries, ('/' : Char) ∉ e.name) :
    (∀ s ∈ listFilesResult entries, startsWithDot s = false) ∧
    (∀ s ∈ listFilesResult entries,
       (∃ e ∈ entries, e.isDir = true ∧ s = e.name ++ ['/']) ∨
       (∃ e ∈ entries, e.isDir = false ∧ s = e.name)) ∧
    chainSortedBy lexLe ((listFilesResult entries).map undecorate) = true := by
  haveI : IsTotal DirEntry entryLe :=
    ⟨fun a b => (lexLe_total a.name b.name).imp id id⟩
  haveI : IsTrans DirEntry entryLe :=
    ⟨fun a b c hab hbc => lexLe_trans a.name b.name c.name hab hbc⟩
  have hmem : ∀ e : DirEntry,
      e ∈ (List.insertionSort entryLe entries).filter
        (fun e => !startsWithDot e.name) → e ∈ entries := by
    intro e he
    have h1 := List.mem_of_mem_filter he
    exact (List.perm_insertionSort entryLe entries).mem_iff.mp h1
  refine ⟨?_, ?_, ?_⟩
  · intro s hs
    unfold listFilesResult at hs
    obtain ⟨e, he, hde⟩ := List.mem_map.mp hs
    have hq' : startsWithDot e.name = false := by
      have hq := (List.mem_filter.mp he).2
      simpa using hq
    rw [← hde]
    cases hd : e.isDir with
    | true => simp [hd, startsWithDot_append_slash, hq']
    | false => simp [hd, hq']
  · intro s hs
    unfold listFilesResult at hs
    obtain ⟨e, he, hde⟩ := List.mem_map.mp hs
    have hent := hmem e he
    cases hd : e.isDir with
    | true =>
      left
      exact ⟨e, hent, hd, by rw [← hde, hd]; simp⟩
    | false =>
      right
      exact ⟨e, hent, hd, by rw [← hde, hd]; simp⟩
  · unfold listFilesResult
    rw [List.map_map]
    have hmapeq : ((List.insertionSort entryLe entries).filter
          (fun e => !startsWithDot e.name)).map
            (undecorate ∘ fun e => if e.isDir then e.name ++ ['/'] else e.name) =
        ((List.insertionSort entryLe entries).filter
          (fun e => !startsWithDot e.name)).map (fun e => e.name) := by
      apply List.map_congr_left
      intro e he
      have hns : ('/' : Char) ∉ e.name := hslash e (hmem e he)
      cases hd : e.isDir with
      | true => simp [Function.comp, hd, undecorate_append_slash]
      | false => simp [Function.comp, hd, undecorate_no_slash e.name hns]
    rw [hmapeq]
    apply chainSorted_of_pairwise
    have hsorted : List.Pairwise entryLe (List.insertionSort entryLe entries) :=
      List.sorted_insertionSort entryLe entries
    have hfil : List.Pairwise entryLe
        ((List.insertionSort entryLe entries).filter
          (fun e => !startsWithDot e.name)) :=
      hsorted.filter _
    exact List.pairwise_map.mpr hfil

/-- Witness for `list_files_hidden_sorted_decorated` on a small
listing. -/
theorem list_files_hidden_sorted_decorated_witness :
    (∀ e ∈ [(⟨"b".toList, true⟩ : DirEntry), ⟨"a".toList, false⟩,
        ⟨".git".toList, true⟩], ('/' : Char) ∉ e.name) ∧
    ((∀ s ∈ listFilesResult [⟨"b".toList, true⟩, ⟨"a".toList, false⟩,
          ⟨".git".toList, true⟩], startsWithDot s = false) ∧
      (∀ s ∈ listFilesResult [⟨"b".toList, true⟩, ⟨"a".toList, false⟩,
          ⟨".git".toList, true⟩],
        (∃ e ∈ [(⟨"b".toList, true⟩ : DirEntry), ⟨"a".toList, false⟩,
            ⟨".git".toList, true⟩], e.isDir = true ∧ s = e.name ++ ['/']) ∨
        (∃ e ∈ [(⟨"b".toList, true⟩ : DirEntry), ⟨"a".toList, false⟩,
            ⟨".git".toList, true⟩], e.isDir = false ∧ s = e.name)) ∧
      chainSortedBy lexLe ((listFilesResult [⟨"b".toList, true⟩,
        ⟨"a".toList, false⟩, ⟨".git".toList, true⟩]).map undecorate) = true) :=
  ⟨by decide,
   list_files_hidden_sorted_decorated
     [⟨"b".toList, true⟩, ⟨"a".toList, false⟩, ⟨".git".toList, true⟩]
     (by decide)⟩

/-! ## Fuzzy-phase line lemmas -/

/-- A non-empty text has at least one line. -/
theorem splitlinesPy_ne_nil (s : Text) (h : s ≠ []) : splitlinesPy s ≠ [] := by
  cases s with
  | nil => exact absurd rfl h
  | cons c t =>
    by_cases hc : c = '\n'
    · simp [splitlinesPy, hc]
    · simp only [splitlinesPy, if_neg hc]
      cases splitlinesPy t <;> simp

/-- No line produced by `splitlinesPy` contains the separator. -/
theorem newline_not_mem_splitlines :
    ∀ (s l : Text), l ∈ splitlinesPy s → ('\n' : Char) ∉ l := by
  intro s
  induction s with
  | nil =>
    intro l hl
    simp [splitlinesPy] at hl
  | cons c t ih =>
    intro l hl
    by_cases hc : c = '\n'
    · subst hc
      simp only [splitlinesPy, if_pos rfl] at hl
      rcases List.mem_cons.mp hl with rfl | hl'
      · simp
      · exact ih l hl'
    · simp only [splitlinesPy, if_neg hc] at hl
      cases hsp : splitlinesPy t with
      | nil =>
        rw [hsp] at hl
        simp at hl
        subst hl
        intro hmem
        simp at hmem
        exact hc hmem.symm
      | cons x xs =>
        rw [hsp] at hl
        rcases List.mem_cons.mp hl with rfl | hl'
        · intro hmem
          rcases List.mem_cons.mp hmem with heq | hmem'
          · exact hc heq.symm
          · exact ih x (by rw [hsp]; exact List.mem_cons_self x xs) hmem'
        · exact ih l (by rw [hsp]; exact List.mem_cons_of_mem x hl')

/-- A text that ends in a single newline (not two, and is not just a
newline) splits into lines whose last line is non-empty. -/
theorem splitlines_last_ne_nil :
    ∀ s : Text, s.getLast? = some '\n' → ¬ (['\n', '\n'] <:+ s) →
      s ≠ ['\n'] →
      ∃ l, (splitlinesPy s).getLast? = some l ∧ l ≠ [] := by
  intro s
  induction s with
  | nil =>
    intro h
    simp at h
  | cons c t ih =>
    intro hlast hnn hone
    by_cases hc : c = '\n'
    · subst hc
      have ht_ne : t ≠ [] := fun he => hone (by rw [he])
      have htlast : t.getLast? = some '\n' := by
        rw [getLast?_cons_of_ne_nil '\n' t ht_ne] at hlast
        exact hlast
      have htnn : ¬ (['\n', '\n'] <:+ t) :=
        fun hs => hnn (hs.trans (List.suffix_cons '\n' t))
      have htone : t ≠ ['\n'] := by
        intro he
        subst he
        exact hnn (List.suffix_refl _)
      obtain ⟨l, hl, hlne⟩ := ih htlast htnn htone
      refine ⟨l, ?_, hlne⟩
      show (([] : Text) :: splitlinesPy t).getLast? = some l
      rw [getLast?_cons_of_ne_nil [] (splitlinesPy t) (splitlinesPy_ne_nil t ht_ne)]
      exact hl
    · have ht_ne : t ≠ [] := by
        intro he
        subst he
        simp at hlast
        exact hc hlast
      have htlast : t.getLast? = some '\n' := by
        rw [getLast?_cons_of_ne_nil c t ht_ne] at hlast
        exact hlast
      by_cases hton : t = ['\n']
      · refine ⟨[c], ?_, by simp⟩
        have hform : splitlinesPy (c :: t) = [[c]] := by
          rw [hton]
          simp [splitlinesPy, hc]
        rw [hform]
        rfl
      · have htnn : ¬ (['\n', '\n'] <:+ t) :=
          fun hs => hnn (hs.trans (List.suffix_cons c t))
        obtain ⟨l, hl, hlne⟩ := ih htlast htnn hton
        have hsp_ne : splitlinesPy t ≠ [] := splitlinesPy_ne_nil t ht_ne
        cases hsp : splitlinesPy t with
        | nil => exact absurd hsp hsp_ne
        | cons x xs =>
          have hform : splitlinesPy (c :: t) = (c :: x) :: xs := by
            simp only [splitlinesPy, if_neg hc]
            rw [hsp]
          rw [hform]
          rcases xs with _ | ⟨y, ys⟩
          · exact ⟨c :: x, by simp, by simp⟩
          · refine ⟨l, ?_, hlne⟩
            rw [getLast?_cons_of_ne_nil (c :: x) (y :: ys) (by simp)]
            rw [hsp, getLast?_cons_of_ne_nil x (y :: ys) (by simp)] at hl
            exact hl

/-- The last element determines the last character of a separator
join. -/
theorem joinWith_getLast (sep : Char) :
    ∀ (L : List Text) (l : Text), l ≠ [] →
      (joinWith sep (L ++ [l])).getLast? = l.getLast? := by
  intro L
  induction L with
  | nil =>
    intro l _
    rfl
  | cons a L' ih =>
    intro l hl
    cases L' with
    | nil =>
      show (a ++ sep :: l).getLast? = l.getLast?
      rw [getLast?_append_of_ne a (sep :: l) (by simp),
        getLast?_cons_of_ne_nil sep l hl]
    | cons b L'' =>
      show (a ++ sep :: joinWith sep ((b :: L'') ++ [l])).getLast? = l.getLast?
      rw [getLast?_append_of_ne a _ (by simp)]
      rw [getLast?_cons_of_ne_nil sep _ ?hne]
      · exact ih l hl
      case hne =>
        intro he
        have h2 := ih l hl
        rw [he] at h2
        exact hl (List.getLast?_eq_none_iff.mp h2.symm)

/-- An all-whitespace indent prepended to every line of a line list
joins to a non-empty text not ending in a newline. -/
theorem indented_join_spec (ind : Text) (hind : ind ≠ [])
    (hindw : ∀ c ∈ ind, isPySpace c = true)
    (RL : List Text) (hRL : RL ≠ [])
    (hlines : ∀ l ∈ RL, ('\n' : Char) ∉ l) :
    joinWith '\n' (RL.map (fun l => ind ++ l)) ≠ [] ∧
    (joinWith '\n' (RL.map (fun l => ind ++ l))).getLast? ≠ some '\n' := by
  have hsplit : RL.dropLast ++ [RL.getLast hRL] = RL :=
    List.dropLast_append_getLast hRL
  have hmap : RL.map (fun l => ind ++ l) =
      RL.dropLast.map (fun l => ind ++ l) ++ [ind ++ RL.getLast hRL] := by
    conv_lhs => rw [← hsplit]
    simp
  have hcat_ne : ind ++ RL.getLast hRL ≠ [] := by
    simp [List.append_eq_nil, hind]
  have hjlast : (joinWith '\n' (RL.map (fun l => ind ++ l))).getLast? =
      (ind ++ RL.getLast hRL).getLast? := by
    rw [hmap]
    exact joinWith_getLast '\n' _ _ hcat_ne
  constructor
  · intro he
    rw [he] at hjlast
    exact hcat_ne (List.getLast?_eq_none_iff.mp hjlast.symm)
  · rw [hjlast]
    intro hcontra
    have hmem := mem_of_getLast?_eq hcontra
    rcases List.mem_append.mp hmem with hmi | hml
    · have := hindw '\n' hmi
      simp [isPySpace] at this
    · exact hlines (RL.getLast hRL) (List.getLast_mem hRL) hml

/-- Unfolding of `correctedReplBlock`. -/
theorem correctedReplBlock_eq (fileLines : List Text) (startIdx : Nat)
    (repl : Text) :
    correctedReplBlock fileLines startIdx repl =
      if splitlinesPy repl ≠ [] ∧
          (fileLines.getD startIdx []).takeWhile isPySpace ≠ [] ∧
          startsWithSpaceTab ((splitlinesPy repl).headD []) = false then
        joinWith '\n' ((splitlinesPy repl).map
          (fun l => (fileLines.getD startIdx []).takeWhile isPySpace ++ l))
      else repl := rfl

/-- Whatever the indent correction does, a non-empty replacement block
without a trailing newline stays non-empty and without a trailing
newline. -/
theorem correctedReplBlock_spec (fileLines : List Text) (startIdx : Nat)
    (repl : Text) (h1 : repl ≠ []) (h2 : repl.getLast? ≠ some '\n') :
    correctedReplBlock fileLines startIdx repl ≠ [] ∧
    (correctedReplBlock fileLines startIdx repl).getLast? ≠ some '\n' := by
  rw [correctedReplBlock_eq]
  by_cases hcond : splitlinesPy repl ≠ [] ∧
      (fileLines.getD startIdx []).takeWhile isPySpace ≠ [] ∧
      startsWithSpaceTab ((splitlinesPy repl).headD []) = false
  · rw [if_pos hcond]
    exact indented_join_spec _ hcond.2.1
      (fun c hc => List.mem_takeWhile_imp hc)
      _ hcond.1 (fun l hl => newline_not_mem_splitlines repl l hl)
  · rw [if_neg hcond]
    exact ⟨h1, h2⟩

/-- Unfolding of `fuzzyReconstruct`. -/
theorem fuzzyReconstruct_eq (fileLines : List Text) (startIdx nSearch : Nat)
    (repl : Text) :
    fuzzyReconstruct fileLines startIdx nSearch repl =
      if joinWith '\n' (fileLines.drop (startIdx + nSearch)) ≠ [] then
        ((if joinWith '\n' (fileLines.take startIdx) ≠ [] then
            joinWith '\n' (fileLines.take startIdx) ++ ['\n']
          else []) ++ correctedReplBlock fileLines startIdx repl) ++
          (if (correctedReplBlock fileLines startIdx repl).getLast? ≠ some '\n' ∧
              correctedReplBlock fileLines startIdx repl ≠ [] then ['\n']
            else []) ++
          joinWith '\n' (fileLines.drop (startIdx + nSearch))
      else
        (if joinWith '\n' (fileLines.take startIdx) ≠ [] then
            joinWith '\n' (fileLines.take startIdx) ++ ['\n']
          else []) ++ correctedReplBlock fileLines startIdx repl := rfl

/-- C9 counterexample: the file `"x \ny\nz\n\n"` ends with a newline
and the replacement `"R"` does not, yet the successful fuzzy edit
produces `"R\nz\n"`, which still ends with a newline — `splitlines`
keeps the blank last line, and rejoining restores its newline. -/
theorem fuzzy_trailing_newline_kept :
    ("x \ny\nz\n\n".toList : Text).getLast? = some '\n' ∧
    ("R".toList : Text).getLast? ≠ some '\n' ∧
    "R".toList ≠ ([] : Text) ∧
    applyFileEdit "x \ny\nz\n\n".toList "x\ny".toList "R".toList =
      .fuzzyOk "R\nz\n".toList ∧
    ("R\nz\n".toList : Text).getLast? = some '\n' := by
  decide

/-- C9 (amended): for a file whose content ends with a single newline
(not two, and is not just a newline), a successful fuzzy-phase
`apply_file_edit` whose replacement block is non-empty and does not end
with a newline produces content that does not end with a newline — the
line-split/rejoin reconstruction drops the original trailing
newline. -/
theorem fuzzy_drops_trailing_newline (content search repl out : Text)
    (hcontent : content.getLast? = some '\n')
    (hnn : ¬ (['\n', '\n'] <:+ content))
    (hone : content ≠ ['\n'])
    (hrepl : repl ≠ [])
    (hrlast : repl.getLast? ≠ some '\n')
    (hrun : applyFileEdit content search repl = .fuzzyOk out) :
    out.getLast? ≠ some '\n' := by
  have hfz : applyFuzzy content search repl = .fuzzyOk out := by
    unfold applyFileEdit at hrun
    by_cases hsub : isSubstrOf search content = true
    · rw [if_pos hsub] at hrun
      by_cases hcnt : countOcc content search > 1
      · rw [if_pos hcnt] at hrun
        exact absurd hrun (by simp)
      · rw [if_neg hcnt] at hrun
        exact absurd hrun (by simp)
    · rwa [if_neg hsub] at hrun
  unfold applyFuzzy at hfz
  by_cases hn0 : ((splitlinesPy search).map stripPy).length = 0
  · rw [if_pos hn0] at hfz
    exact absurd hfz (by simp)
  · rw [if_neg hn0] at hfz
    rcases hms : fuzzyMatches ((splitlinesPy content).map stripPy)
        ((splitlinesPy search).map stripPy) with _ | ⟨i, _ | ⟨j, ms⟩⟩
    · rw [hms] at hfz
      exact absurd hfz (by simp)
    · rw [hms] at hfz
      have hout : fuzzyReconstruct (splitlinesPy content) i
          ((splitlinesPy search).map stripPy).length repl = out := by
        simpa using hfz
      rw [← hout]
      obtain ⟨lastL, hlastL, hlastLne⟩ :=
        splitlines_last_ne_nil content hcontent hnn hone
      obtain ⟨hcrb_ne, hcrb_last⟩ :=
        correctedReplBlock_spec (splitlinesPy content) i repl hrepl hrlast
      rw [fuzzyReconstruct_eq]
      by_cases hpost : joinWith '\n' ((splitlinesPy content).drop
          (i + ((splitlinesPy search).map stripPy).length)) ≠ []
      · rw [if_pos hpost]
        have hD_ne : (splitlinesPy content).drop
            (i + ((splitlinesPy search).map stripPy).length) ≠ [] := by
          intro he
          rw [he] at hpost
          exact hpost rfl
        have hDlast : ((splitlinesPy content).drop
            (i + ((splitlinesPy search).map stripPy).length)).getLast? =
              some lastL := by
          rw [getLast?_of_suffix (List.drop_suffix _ _) hD_ne]
          exact hlastL
        have hDsplit : ((splitlinesPy content).drop
            (i + ((splitlinesPy search).map stripPy).length)).dropLast ++
              [lastL] =
            (splitlinesPy content).drop
              (i + ((splitlinesPy search).map stripPy).length) := by
          have h2 := List.getLast?_eq_getLast ((splitlinesPy content).drop
            (i + ((splitlinesPy search).map stripPy).length)) hD_ne
          rw [hDlast] at h2
          rw [Option.some.inj h2]
          exact List.dropLast_append_getLast hD_ne
        have hpostlast : (joinWith '\n' ((splitlinesPy content).drop
            (i + ((splitlinesPy search).map stripPy).length))).getLast? =
              lastL.getLast? := by
          conv_lhs => rw [← hDsplit]
          exact joinWith_getLast '\n' _ lastL hlastLne
        rw [getLast?_append_of_ne _ _ hpost, hpostlast]
        intro hcontra
        exact newline_not_mem_splitlines content lastL
          (mem_of_getLast?_eq hlastL) (mem_of_getLast?_eq hcontra)
      · rw [if_neg hpost]
        rw [getLast?_append_of_ne _ _ hcrb_ne]
        exact hcrb_last
    · rw [hms] at hfz
      exact absurd hfz (by simp)

/-- Witness for `fuzzy_drops_trailing_newline`: the file
`"a\nb \nc\nd\n"` patched at the fuzzy window `"b\nc"` with `"R"`
yields `"a\nR\nd"` without a trailing newline. -/
theorem fuzzy_drops_trailing_newline_witness :
    ("a\nb \nc\nd\n".toList : Text).getLast? = some '\n' ∧
    ¬ (['\n', '\n'] <:+ "a\nb \nc\nd\n".toList) ∧
    "a\nb \nc\nd\n".toList ≠ (['\n'] : Text) ∧
    "R".toList ≠ ([] : Text) ∧
    ("R".toList : Text).getLast? ≠ some '\n' ∧
    applyFileEdit "a\nb \nc\nd\n".toList "b\nc".toList "R".toList =
      .fuzzyOk "a\nR\nd".toList ∧
    ("a\nR\nd".toList : Text).getLast? ≠ some '\n' :=
  ⟨by decide, by decide, by decide, by decide, by decide, by decide,
   fuzzy_drops_trailing_newline "a\nb \nc\nd\n".toList "b\nc".toList
     "R".toList "a\nR\nd".toList (by decide) (by decide) (by decide)
     (by decide) (by decide) (by decide)⟩

/-- The empty string is a substring of everything (Python `"" in s`). -/
theorem isSubstrOf_nil (content : Text) : isSubstrOf [] content = true := by
  cases content with
  | nil => rfl
  | cons c t => rfl

/-- C3 counterexample: on the file `"a\nb \nc\nd"` with fuzzy window
`"b\nc"` at line 1 and replacement `"R\n"`, the code writes
`"a\nR\nd"`, but the claimed reconstruction — which always inserts a
newline before trailing lines — gives `"a\nR\n\nd"`: the code inserts
that newline only when the replacement block does not already end with
one. -/
theorem fuzzy_reconstruction_newline_deviation :
    applyFileEdit "a\nb \nc\nd".toList "b\nc".toList "R\n".toList =
      .fuzzyOk "a\nR\nd".toList ∧
    fuzzyMatches ((splitlinesPy "a\nb \nc\nd".toList).map stripPy)
        ((splitlinesPy "b\nc".toList).map stripPy) = [1] ∧
    claimedReconstruction (splitlinesPy "a\nb \nc\nd".toList) 1 2
        "R\n".toList = "a\nR\n\nd".toList ∧
    ("a\nR\nd".toList : Text) ≠ "a\nR\n\nd".toList := by
  decide

/-- C3 (amended): when the fuzzy phase runs (no exact substring
occurrence) and finds exactly one candidate window at line index `i`,
the call succeeds and rewrites the file as follows.  The replacement
block: if it has lines, the original line at `i` has a non-empty
leading-whitespace prefix, and the block's first line starts with
neither space nor tab, that exact prefix is prepended to every line of
the block uniformly (rejoined by newline); otherwise the block is kept
as is.  The file becomes: the pre-window lines joined by newline
followed by a newline (only when that joined text is non-empty), then
the block, then — only when the joined trailing lines are non-empty — a
separating newline (only when the block is non-empty and does not
already end with a newline) followed by the joined trailing lines. -/
theorem fuzzy_unique_reconstruction (content search repl : Text) (i : Nat)
    (hsub : isSubstrOf search content = false)
    (hms : fuzzyMatches ((splitlinesPy content).map stripPy)
        ((splitlinesPy search).map stripPy) = [i]) :
    applyFileEdit content search repl =
      .fuzzyOk (
        if joinWith '\n' ((splitlinesPy content).drop
            (i + ((splitlinesPy search).map stripPy).length)) ≠ [] then
          ((if joinWith '\n' ((splitlinesPy content).take i) ≠ [] then
              joinWith '\n' ((splitlinesPy content).take i) ++ ['\n']
            else []) ++
            (if splitlinesPy repl ≠ [] ∧
                ((splitlinesPy content).getD i []).takeWhile isPySpace ≠ [] ∧
                startsWithSpaceTab ((splitlinesPy repl).headD []) = false then
              joinWith '\n' ((splitlinesPy repl).map
                (fun l => ((splitlinesPy content).getD i []).takeWhile isPySpace ++ l))
            else repl)) ++
            (if (if splitlinesPy repl ≠ [] ∧
                  ((splitlinesPy content).getD i []).takeWhile isPySpace ≠ [] ∧
                  startsWithSpaceTab ((splitlinesPy repl).headD []) = false then
                joinWith '\n' ((splitlinesPy repl).map
                  (fun l => ((splitlinesPy content).getD i []).takeWhile isPySpace ++ l))
              else repl).getLast? ≠ some '\n' ∧
                (if splitlinesPy repl ≠ [] ∧
                    ((splitlinesPy content).getD i []).takeWhile isPySpace ≠ [] ∧
                    startsWithSpaceTab ((splitlinesPy repl).headD []) = false then
                  joinWith '\n' ((splitlinesPy repl).map
                    (fun l => ((splitlinesPy content).getD i []).takeWhile isPySpace ++ l))
                else repl) ≠ [] then ['\n']
            else []) ++
            joinWith '\n' ((splitlinesPy content).drop
              (i + ((splitlinesPy search).map stripPy).length))
        else
          (if joinWith '\n' ((splitlinesPy content).take i) ≠ [] then
              joinWith '\n' ((splitlinesPy content).take i) ++ ['\n']
            else []) ++
            (if splitlinesPy repl ≠ [] ∧
                ((splitlinesPy content).getD i []).takeWhile isPySpace ≠ [] ∧
                startsWithSpaceTab ((splitlinesPy repl).headD []) = false then
              joinWith '\n' ((splitlinesPy repl).map
                (fun l => ((splitlinesPy content).getD i []).takeWhile isPySpace ++ l))
            else repl)) := by
  have hsne : search ≠ [] := by
    intro he
    subst he
    rw [isSubstrOf_nil content] at hsub
    simp at hsub
  have hn0 : ¬ ((splitlinesPy search).map stripPy).length = 0 := by
    rw [List.length_map]
    intro he
    exact splitlinesPy_ne_nil search hsne (List.length_eq_zero.mp he)
  unfold applyFileEdit
  rw [if_neg (by simp [hsub])]
  unfold applyFuzzy
  rw [if_neg hn0, hms]
  show EditResult.fuzzyOk (fuzzyReconstruct (splitlinesPy content) i
    ((splitlinesPy search).map stripPy).length repl) = _
  rw [fuzzyReconstruct_eq, correctedReplBlock_eq]

/-- Witness for `fuzzy_unique_reconstruction`: the unique fuzzy window
`"b\nc"` of `"a\nb \nc\nd"` replaced by `"R"` gives `"a\nR\nd"`. -/
theorem fuzzy_unique_reconstruction_witness :
    isSubstrOf "b\nc".toList "a\nb \nc\nd".toList = false ∧
    fuzzyMatches ((splitlinesPy "a\nb \nc\nd".toList).map stripPy)
        ((splitlinesPy "b\nc".toList).map stripPy) = [1] ∧
    applyFileEdit "a\nb \nc\nd".toList "b\nc".toList "R".toList =
      .fuzzyOk "a\nR\nd".toList :=
  ⟨by decide, by decide,
   (fuzzy_unique_reconstruction "a\nb \nc\nd".toList "b\nc".toList
     "R".toList 1 (by decide) (by decide)).trans (by decide)⟩
